import Mathlib

/-!
Verification of the pybinmap bit-field decoding library.

The Python source (`pybinmap/binmap.py` and `pybinmap/dataitems.py`) is
embedded shallowly: byte buffers are `List Nat` (each entry one byte),
Python ints are `Nat`, `bytes` results are `List Nat`, and exceptions are
`Option`/`Except` results.  The two modules contain the same `DataItem`
extraction algorithm; it is embedded once below.
-/

namespace PyBinMap

/-- `DataItem.get_bit`: `(byte, bit) = divmod(abs_bit, 8)`;
`(data[byte] & (1 << bit)) >> bit`. -/
def get_bit (data : List Nat) (abs_bit : Nat) : Nat :=
  (data.getD (abs_bit / 8) 0 &&& (1 <<< (abs_bit % 8))) >>> (abs_bit % 8)

/-- One iteration of the loop body of `DataItem.extract_raw_value`.
State is `(bytelist, bc, d)` exactly as in the Python code. -/
def erv_step (data : List Nat) (st : List Nat × Nat × Nat) (abs_bit : Nat) :
    List Nat × Nat × Nat :=
  let b := get_bit data abs_bit
  let d := st.2.2 + (b <<< (st.2.1 % 8))
  let bc := st.2.1 + 1
  if bc = 8 then (st.1 ++ [d], 0, 0) else (st.1, bc, d)

/-- The epilogue of `DataItem.extract_raw_value`: append the trailing
partial byte when `bc != 0` at loop exit. -/
def erv_finish (r : List Nat × Nat × Nat) : List Nat :=
  if r.2.1 ≠ 0 then r.1 ++ [r.2.2] else r.1

/-- `DataItem.extract_raw_value`: iterate `abs_bit` over
`range(start, end + 1)` (with `end = start + length - 1`, so the range has
exactly `length` elements), packing bits least-significant-first into
successive output bytes; a trailing partial byte is appended when
`bc != 0` at loop exit. -/
def extract_raw_value (data : List Nat) (start len : Nat) : List Nat :=
  erv_finish ((List.range' start len).foldl (erv_step data) ([], 0, 0))

/-- The integer whose binary digits (LSB first) are the `n` buffer bits at
absolute addresses `start, start+1, ..., start+n-1`.  This is the
mathematical value of a packed bit range and is used to state what
extraction and UInt decoding compute. -/
def bitsVal (data : List Nat) (start : Nat) : Nat → Nat
  | 0 => 0
  | n + 1 => bitsVal data start n + get_bit data (start + n) * 2 ^ n

/-- Byte-level restatement of the extraction loop: the output is the
sequence of 8-bit groups of the bit range, the last group possibly
shorter.  Proved equal to `extract_raw_value` below. -/
def buildBytes (data : List Nat) (start len : Nat) : List Nat :=
  if len = 0 then []
  else if h : len ≤ 8 then [bitsVal data start len]
  else bitsVal data start 8 :: buildBytes data (start + 8) (len - 8)
termination_by len
decreasing_by omega

/-- `UIntDataItem.calc_value`: reverse the raw bytes for big endian, then
`r += (1 << (8 * p)) * b` over `enumerate(d)`. -/
def uint_calc (endian : String) (raw : List Nat) : Nat :=
  let d := if endian = "big" then raw.reverse else raw
  d.enum.foldl (fun r pb => r + (1 <<< (8 * pb.1)) * pb.2) 0

/-- `BoolDataItem.calc_value`: `bool(super().calc_value())`, i.e. the UInt
value compared against zero. -/
def bool_calc (endian : String) (raw : List Nat) : Bool :=
  uint_calc endian raw != 0

/-- `CharDataItem.calc_value`: the source executes
`self._raw_value.decode('ascii')` unconditionally — the stored
`self._encoding` is never consulted.  Python `bytes.decode('ascii')`
succeeds iff every byte is below 128 and yields the same code points. -/
def char_calc (encoding : String) (raw : List Nat) : Option (List Nat) :=
  if raw.all (fun b => decide (b < 128)) then some raw else none

/-- The closed set of field kinds implemented by the source
(`RawDataItem`, `UIntDataItem`, `CharDataItem`, `BoolDataItem`). -/
inductive Kind where
  | raw
  | uint
  | char
  | bool
deriving DecidableEq

/-- One entry of `BinMap._type_tbl`: the implementing class plus the
default parameters (`length`, `encoding`) fixed by the tag. -/
structure RegEntry where
  kind : Kind
  length : Option Nat := none
  encoding : Option String := none
deriving DecidableEq

/-- `BinMap._type_tbl`: the registry dictionary from `binmap.py`.
Lookup of a tag outside the table fails (Python `KeyError`). -/
def type_tbl (dt : String) : Option RegEntry :=
  if dt = "raw" then some { kind := Kind.raw }
  else if dt = "uint" then some { kind := Kind.uint }
  else if dt = "uint8" then some { kind := Kind.uint, length := some 8 }
  else if dt = "uint16" then some { kind := Kind.uint, length := some 16 }
  else if dt = "uint32" then some { kind := Kind.uint, length := some 32 }
  else if dt = "uint64" then some { kind := Kind.uint, length := some 64 }
  else if dt = "ascii" then some { kind := Kind.char, encoding := some "ascii" }
  else if dt = "utf8" then some { kind := Kind.char, encoding := some "utf-8" }
  else if dt = "bool" then some { kind := Kind.bool }
  else if dt = "bool1" then some { kind := Kind.bool, length := some 1 }
  else if dt = "bool8" then some { kind := Kind.bool, length := some 8 }
  else none

/-- The caller-supplied keyword arguments of one `add` call (the
descriptor, minus the tag).  Absent keys are `none`. -/
structure Params where
  name : Option String := none
  start : Option Nat := none
  length : Option Nat := none
  endian : Option String := none
  encoding : Option String := none
deriving DecidableEq

/-- A materialized data item.  `dt` and `args` record the construction
descriptor (`DataItem.spec` in `dataitems.py` stores the constructor
kwargs); the remaining fields are the attributes the Python object
carries after `__init__`. -/
structure Field where
  dt : String
  args : Params
  name : String
  start : Nat
  length : Nat
  endian : String
  encoding : String
  kind : Kind
deriving DecidableEq

/-- `DataItem.end`: address of the last bit of the item,
`start + length - 1`. -/
def endBit (f : Field) : Nat := f.start + f.length - 1

/-- `BinMap.add` up to insertion: resolve the tag in `_type_tbl`
(`KeyError` on unknown tag → `none`), execute `kwargs.update(spec)` — the
registry's `length`/`encoding` overwrite any caller value — then run the
class constructor: `name`, `start`, `length` are required (`KeyError` when
absent), `endian` defaults to `little` and is validated for
`UInt`/`Bool` items, `encoding` defaults to `ascii`. -/
def mkField (dt : String) (p : Params) : Option Field :=
  match type_tbl dt with
  | none => none
  | some entry =>
    match p.name, p.start, (entry.length).or p.length with
    | some name, some start, some len =>
      let endian := p.endian.getD "little"
      let encoding := ((entry.encoding).or p.encoding).getD "ascii"
      if (entry.kind = Kind.uint ∨ entry.kind = Kind.bool) ∧
          ¬(endian = "little" ∨ endian = "big") then none
      else
        some { dt := dt, args := p, name := name, start := start,
               length := len, endian := endian, encoding := encoding,
               kind := entry.kind }
    | _, _, _ => none

/-- The interpreted value of a data item, one constructor per kind. -/
inductive Value where
  | vraw (bs : List Nat)
  | vuint (n : Nat)
  | vbool (b : Bool)
  | vstr (cs : List Nat)
deriving DecidableEq

/-- Kind dispatch of `calc_value`.  `char` decoding can fail
(`UnicodeDecodeError` → `none`). -/
def calc_value (f : Field) (raw : List Nat) : Option Value :=
  match f.kind with
  | Kind.raw => some (Value.vraw raw)
  | Kind.uint => some (Value.vuint (uint_calc f.endian raw))
  | Kind.bool => some (Value.vbool (bool_calc f.endian raw))
  | Kind.char => (char_calc f.encoding raw).map Value.vstr

/-- `DataItem.set_data`: `endbyte = self.end // 8`; raise
`ValueError` naming the item when `len(data) < endbyte + 1`
(the error payload here is the item name); otherwise compute
`raw_value` by extraction and `value` by the kind's `calc_value`. -/
def item_set_data (f : Field) (data : List Nat) :
    Except String (List Nat × Option Value) :=
  if data.length < endBit f / 8 + 1 then Except.error f.name
  else
    let raw := extract_raw_value data f.start f.length
    Except.ok (raw, calc_value f raw)

/-- Insert a field into a start-sorted list, after every element whose
`start` is strictly smaller and before the first element with an equal or
larger `start`.  Used to build the stable sort modelling Python's
`list.sort(key=lambda bd: bd.start)`. -/
def insertSorted (f : Field) : List Field → List Field
  | [] => [f]
  | g :: rest =>
    if f.start ≤ g.start then f :: g :: rest else g :: insertSorted f rest

/-- Stable sort by `start` (insertion sort), modelling Python's stable
`list.sort(key=lambda bd: bd.start)`. -/
def sortByStart : List Field → List Field
  | [] => []
  | f :: rest => insertSorted f (sortByStart rest)

/-- Python `dict[k] = v`: replace the value of an existing key in place,
otherwise append the new binding (insertion order preserved). -/
def dictSet (d : List (String × Field)) (k : String) (v : Field) :
    List (String × Field) :=
  if (d.lookup k).isSome then
    d.map (fun p => if p.1 = k then (k, v) else p)
  else d ++ [(k, v)]

/-- `BinMap`: the sorted item list `_map_list`, the name index
`_map_dict`, and the per-container counter used to name synthetic
unmapped items. -/
structure BinMap where
  map_list : List Field
  map_dict : List (String × Field)
  ucnt : Nat
deriving DecidableEq

/-- A freshly constructed `BinMap()`. -/
def emptyBinMap : BinMap := { map_list := [], map_dict := [], ucnt := 0 }

/-- `BinMap._add_bd`: index the item by name (overwriting a previous
binding), append it to the list and re-sort the list (stable) by start
address. -/
def add_bd (c : BinMap) (f : Field) : BinMap :=
  { c with
    map_dict := dictSet c.map_dict f.name f,
    map_list := sortByStart (c.map_list ++ [f]) }

/-- `BinMap.add`: build the item from the tag and keyword arguments and
insert it via `_add_bd`. -/
def add (c : BinMap) (dt : String) (p : Params) : Option BinMap :=
  (mkField dt p).map (add_bd c)

/-- The ordered `(name, interpretation)` sequence produced by applying a
buffer to every item of the container in list order
(`BinMap.set_data` followed by reading each item). -/
def containerValues (c : BinMap) (data : List Nat) :
    List (String × Except String (List Nat × Option Value)) :=
  c.map_list.map (fun f => (f.name, item_set_data f data))

/-- Modelled from the spec: `add_from_spec` is absent from `src/` (only
the test suite and the spec describe the descriptor replay interface).
Per the spec it applies `add` to each descriptor in the given order. -/
def add_from_spec (c : BinMap) : List (String × Params) → Option BinMap
  | [] => some c
  | (dt, p) :: rest =>
    match add c dt p with
    | none => none
    | some c2 => add_from_spec c2 rest

/-- Modelled from the spec: `get_spec` is absent from `src/` (only
`DataItem.spec`, which returns the construction kwargs, is present).
Per the spec it returns the ordered sequence, in current sort order, of
each field's original construction parameters. -/
def get_spec (c : BinMap) : List (String × Params) :=
  c.map_list.map (fun f => (f.dt, f.args))

/-- Zero-padded three-digit rendering of the per-container counter,
Python `'{:03}'.format(n)` for `n < 1000`. -/
def pad3 (n : Nat) : String :=
  if n < 10 then "00" ++ toString n
  else if n < 100 then "0" ++ toString n
  else toString n

/-- Name of the `i`-th synthetic gap-fill field of a container. -/
def unmapped_name (cnt : Nat) : String := "unmapped_" ++ pad3 cnt

/-- Modelled from the spec: the synthetic Raw field inserted by
`fill_unmapped` for the inclusive bit range `[s, e]` (created via
`add(dt='raw', ...)`, hence Raw kind with default parameters). -/
def mkUnmappedField (cnt s e : Nat) : Field :=
  { dt := "raw",
    args := { name := some (unmapped_name cnt), start := some s,
              length := some (e - s + 1) },
    name := unmapped_name cnt, start := s, length := e - s + 1,
    endian := "little", encoding := "ascii", kind := Kind.raw }

/-- Modelled from the spec: the gap spans between consecutive fields of
the sorted list — for each consecutive pair `(a, b)` with
`b.start > a.end + 1`, the inclusive span `[a.end + 1, b.start - 1]`. -/
def gapsBetween : List Field → List (Nat × Nat)
  | a :: b :: rest =>
    (if endBit a + 1 < b.start then [(endBit a + 1, b.start - 1)] else []) ++
      gapsBetween (b :: rest)
  | _ => []

/-- End address of the last field of a (sorted) list, 0 when empty. -/
def lastEnd (l : List Field) : Nat :=
  match l.getLast? with
  | some f => endBit f
  | none => 0

/-- Modelled from the spec: all spans `fill_unmapped` fills — the leading
span `[0, first.start - 1]` when the first field starts after bit 0, the
gaps between consecutive fields, and the trailing span
`[last.end + 1, end_addr]` when `end_addr` exceeds the last field's
end. -/
def fillSpans (l : List Field) (endAddr : Option Nat) : List (Nat × Nat) :=
  match l with
  | [] => []
  | first :: _ =>
    (if 0 < first.start then [(0, first.start - 1)] else []) ++
      gapsBetween l ++
      (match endAddr with
       | some e => if lastEnd l < e then [(lastEnd l + 1, e)] else []
       | none => [])

/-- Modelled from the spec: the synthetic fields for a span list, the
container counter incremented once per insertion. -/
def synthFields (cnt : Nat) : List (Nat × Nat) → List Field
  | [] => []
  | (s, e) :: rest => mkUnmappedField cnt s e :: synthFields (cnt + 1) rest

/-- Modelled from the spec: `fill_unmapped` is absent from `src/` (only
the test suite exercises it).  Per the spec it fails on an empty
container, inserts one synthetic Raw field per unmapped span through the
ordinary insertion path, and advances the per-container counter. -/
def fill_unmapped (c : BinMap) (endAddr : Option Nat) : Option BinMap :=
  match c.map_list with
  | [] => none
  | _ :: _ =>
    let S := synthFields c.ucnt (fillSpans c.map_list endAddr)
    some { (S.foldl add_bd c) with ucnt := c.ucnt + S.length }

/-- Concrete fixture item (bits 0-7, Raw) used by witness statements. -/
def wfieldA : Field :=
  { dt := "raw", args := {}, name := "dup", start := 0, length := 8,
    endian := "little", encoding := "ascii", kind := Kind.raw }

/-- Concrete fixture item (bits 8-15, UInt, same name as `wfieldA`) used
by witness statements. -/
def wfieldB : Field :=
  { dt := "uint8", args := {}, name := "dup", start := 8, length := 8,
    endian := "little", encoding := "ascii", kind := Kind.uint }

/-- Concrete fixture: the container built by adding descriptors
`(uint8, a, 0)` then `(bool1, b, 8)` to a fresh container; used by
witness statements. -/
def wfa : Field :=
  { dt := "uint8", args := { name := some "a", start := some 0 },
    name := "a", start := 0, length := 8, endian := "little",
    encoding := "ascii", kind := Kind.uint }

/-- Concrete fixture item for the container `wBinMap`. -/
def wfb : Field :=
  { dt := "bool1", args := { name := some "b", start := some 8 },
    name := "b", start := 8, length := 1, endian := "little",
    encoding := "ascii", kind := Kind.bool }

/-- Concrete fixture container holding `wfa` and `wfb`. -/
def wBinMap : BinMap :=
  { map_list := [wfa, wfb], map_dict := [("a", wfa), ("b", wfb)], ucnt := 0 }

/-- Concrete fixture item (bit 1, Bool) for the gap-filler witness. -/
def wgf1 : Field :=
  { dt := "bool", args := { name := some "enabled", start := some 1, length := some 1 },
    name := "enabled", start := 1, length := 1, endian := "little",
    encoding := "ascii", kind := Kind.bool }

/-- Concrete fixture item (bits 8-15, UInt) for the gap-filler witness. -/
def wgf2 : Field :=
  { dt := "uint", args := { name := some "testval", start := some 8, length := some 8 },
    name := "testval", start := 8, length := 8, endian := "little",
    encoding := "ascii", kind := Kind.uint }

/-- Concrete fixture item (bits 32-47, Char) for the gap-filler witness. -/
def wgf3 : Field :=
  { dt := "ascii", args := { name := some "answer", start := some 32, length := some 16 },
    name := "answer", start := 32, length := 16, endian := "little",
    encoding := "ascii", kind := Kind.char }

/-- Concrete fixture container for the gap-filler witness (the unit-test
layout: fields at bit ranges `[1,1]`, `[8,15]`, `[32,47]`). -/
def wGapMap : BinMap :=
  { map_list := [wgf1, wgf2, wgf3],
    map_dict := [("enabled", wgf1), ("testval", wgf2), ("answer", wgf3)],
    ucnt := 0 }

end PyBinMap

namespace PyBinMap

/-! ### Bit-level helper lemmas for the extraction engine -/

theorem get_bit_eq (data : List Nat) (a : Nat) :
    get_bit data a = ((data.getD (a / 8) 0).testBit (a % 8)).toNat := by
  rw [get_bit, Nat.shiftLeft_eq, one_mul, Nat.and_two_pow,
    Nat.shiftRight_eq_div_pow,
    Nat.mul_div_cancel _ (pow_pos (by norm_num : (0 : Nat) < 2) _)]

theorem get_bit_le_one (data : List Nat) (a : Nat) : get_bit data a ≤ 1 := by
  rw [get_bit_eq]
  cases (data.getD (a / 8) 0).testBit (a % 8) <;> simp

theorem get_bit_div_mod (data : List Nat) (a : Nat) :
    get_bit data a = data.getD (a / 8) 0 / 2 ^ (a % 8) % 2 := by
  rw [get_bit_eq, Nat.testBit_to_div_mod]
  rcases Nat.mod_two_eq_zero_or_one (data.getD (a / 8) 0 / 2 ^ (a % 8)) with h | h <;>
    rw [h] <;> rfl

theorem bitsVal_succ (data : List Nat) (start n : Nat) :
    bitsVal data start (n + 1) =
      bitsVal data start n + get_bit data (start + n) * 2 ^ n := rfl

theorem bitsVal_cons (data : List Nat) :
    ∀ (n start : Nat),
      bitsVal data start (n + 1) =
        get_bit data start + 2 * bitsVal data (start + 1) n := by
  intro n
  induction n with
  | zero => intro start; simp [bitsVal]
  | succ n ih =>
    intro start
    rw [bitsVal_succ, ih, bitsVal_succ]
    have h2 : start + (n + 1) = start + 1 + n := by omega
    rw [h2]
    ring

theorem bitsVal_lt (data : List Nat) (start : Nat) :
    ∀ n, bitsVal data start n < 2 ^ n := by
  intro n
  induction n with
  | zero => simp [bitsVal]
  | succ n ih =>
    rw [bitsVal_succ]
    have hb : get_bit data (start + n) * 2 ^ n ≤ 1 * 2 ^ n :=
      Nat.mul_le_mul_right _ (get_bit_le_one data (start + n))
    rw [one_mul] at hb
    have hp : (2 : Nat) ^ (n + 1) = 2 ^ n + 2 ^ n := by ring
    omega

theorem bitsVal_div_mod (data : List Nat) (start : Nat) :
    ∀ n j, j < n → bitsVal data start n / 2 ^ j % 2 = get_bit data (start + j) := by
  intro n
  induction n with
  | zero => intro j hj; omega
  | succ n ih =>
    intro j hj
    rw [bitsVal_succ]
    by_cases hjn : j = n
    · subst hjn
      rw [Nat.add_mul_div_right _ _ (pow_pos (by norm_num : (0 : Nat) < 2) _),
        Nat.div_eq_of_lt (bitsVal_lt data start j)]
      have := get_bit_le_one data (start + j)
      omega
    · have hjn' : j < n := by omega
      have hsplit : (2 : Nat) ^ n = 2 ^ (n - j) * 2 ^ j := by
        rw [← pow_add]; congr 1; omega
      rw [hsplit, ← Nat.mul_assoc,
        Nat.add_mul_div_right _ _ (pow_pos (by norm_num : (0 : Nat) < 2) _)]
      have hnj : (2 : Nat) ^ (n - j) = 2 ^ (n - j - 1) * 2 := by
        rw [← pow_succ]; congr 1; omega
      rw [hnj, ← Nat.mul_assoc, Nat.add_mul_mod_self_right]
      exact ih j hjn'

theorem bitsVal_div_high (data : List Nat) (start : Nat) (n j : Nat)
    (h : n ≤ j) : bitsVal data start n / 2 ^ j % 2 = 0 := by
  have h1 : bitsVal data start n < 2 ^ j :=
    lt_of_lt_of_le (bitsVal_lt data start n)
      (Nat.pow_le_pow_right (by norm_num) h)
  rw [Nat.div_eq_of_lt h1]

/-! ### The extraction loop computes `buildBytes` -/

theorem erv_run (data : List Nat) :
    ∀ (n bc d start : Nat) (acc : List Nat), bc < 8 → bc + n ≤ 8 →
      (List.range' start n).foldl (erv_step data) (acc, bc, d) =
        if bc + n = 8 then
          (acc ++ [d + 2 ^ bc * bitsVal data start n], (0 : Nat), (0 : Nat))
        else (acc, bc + n, d + 2 ^ bc * bitsVal data start n) := by
  intro n
  induction n with
  | zero =>
    intro bc d start acc hbc hle
    rw [if_neg (by omega)]
    simp [bitsVal]
  | succ n ih =>
    intro bc d start acc hbc hle
    rw [List.range'_succ, List.foldl_cons]
    have hstep : erv_step data (acc, bc, d) start =
        if bc + 1 = 8 then
          (acc ++ [d + get_bit data start * 2 ^ bc], (0 : Nat), (0 : Nat))
        else (acc, bc + 1, d + get_bit data start * 2 ^ bc) := by
      simp only [erv_step, Nat.mod_eq_of_lt hbc, Nat.shiftLeft_eq]
    rw [hstep]
    by_cases h8 : bc + 1 = 8
    · have hn : n = 0 := by omega
      subst hn
      rw [if_pos h8]
      simp only [List.range', List.foldl_nil]
      rw [if_pos (by omega)]
      rw [bitsVal_cons]
      simp [bitsVal]
      ring
    · rw [if_neg h8]
      rw [ih (bc + 1) (d + get_bit data start * 2 ^ bc) (start + 1) acc
        (by omega) (by omega)]
      have hcond : bc + 1 + n = bc + (n + 1) := by omega
      rw [hcond]
      by_cases hc : bc + (n + 1) = 8
      · rw [if_pos hc, if_pos hc, bitsVal_cons]
        simp only [Prod.mk.injEq, List.append_cancel_left_eq, List.cons.injEq,
          and_true, true_and]
        ring
      · rw [if_neg hc, if_neg hc, bitsVal_cons]
        simp only [Prod.mk.injEq, true_and]
        ring

theorem erv_fold_build_aux (data : List Nat) :
    ∀ (fuel len start : Nat) (acc : List Nat), len ≤ fuel →
      erv_finish ((List.range' start len).foldl (erv_step data) (acc, 0, 0)) =
        acc ++ buildBytes data start len := by
  intro fuel
  induction fuel with
  | zero =>
    intro len start acc hle
    have h0 : len = 0 := by omega
    subst h0
    have hb : buildBytes data start 0 = [] := by rw [buildBytes]; rfl
    simp [erv_finish, hb]
  | succ fuel ih =>
    intro len start acc hle
    by_cases h0 : len = 0
    · subst h0
      have hb : buildBytes data start 0 = [] := by rw [buildBytes]; rfl
      simp [erv_finish, hb]
    · by_cases h8 : len ≤ 8
      · rw [erv_run data len 0 0 start acc (by norm_num) (by omega)]
        by_cases hc : len = 8
        · subst hc
          rw [if_pos (by norm_num)]
          have hb8 : buildBytes data start 8 = [bitsVal data start 8] := by
            rw [buildBytes]; rfl
          simp [erv_finish, hb8]
        · rw [if_neg (by omega)]
          have hb : buildBytes data start len = [bitsVal data start len] := by
            rw [buildBytes, if_neg h0, dif_pos h8]
          rw [hb]
          simp [erv_finish, h0]
      · have hsplit : List.range' start 8 ++ List.range' (start + 8) (len - 8) =
            List.range' start len := by
          rw [List.range'_append_1]
          congr 1
          omega
        rw [← hsplit, List.foldl_append]
        rw [erv_run data 8 0 0 start acc (by norm_num) (by norm_num)]
        rw [if_pos (by norm_num)]
        rw [ih (len - 8) (start + 8) (acc ++ [0 + 2 ^ 0 * bitsVal data start 8])
          (by omega)]
        have hbb : buildBytes data start len =
            bitsVal data start 8 :: buildBytes data (start + 8) (len - 8) := by
          rw [buildBytes]
          rw [if_neg h0, dif_neg h8]
        rw [hbb]
        simp

theorem extract_eq_buildBytes (data : List Nat) (start len : Nat) :
    extract_raw_value data start len = buildBytes data start len := by
  have h := erv_fold_build_aux data len len start [] (Nat.le_refl len)
  simpa [extract_raw_value] using h

end PyBinMap

namespace PyBinMap

/-! ### Properties of the produced byte list -/

theorem buildBytes_length (data : List Nat) :
    ∀ (fuel len start : Nat), len ≤ fuel →
      (buildBytes data start len).length = (len + 7) / 8 := by
  intro fuel
  induction fuel with
  | zero =>
    intro len start hle
    have h0 : len = 0 := by omega
    subst h0
    rw [show buildBytes data start 0 = [] from by rw [buildBytes]; rfl]
    rfl
  | succ fuel ih =>
    intro len start hle
    by_cases h0 : len = 0
    · subst h0
      rw [show buildBytes data start 0 = [] from by rw [buildBytes]; rfl]
      rfl
    · by_cases h8 : len ≤ 8
      · rw [show buildBytes data start len = [bitsVal data start len] from by
          rw [buildBytes, if_neg h0, dif_pos h8]]
        simp only [List.length_singleton]
        omega
      · rw [show buildBytes data start len =
            bitsVal data start 8 :: buildBytes data (start + 8) (len - 8) from by
          rw [buildBytes, if_neg h0, dif_neg h8]]
        rw [List.length_cons, ih (len - 8) (start + 8) (by omega)]
        omega

theorem buildBytes_bytes_lt (data : List Nat) :
    ∀ (fuel len start : Nat), len ≤ fuel →
      ∀ b ∈ buildBytes data start len, b < 256 := by
  intro fuel
  induction fuel with
  | zero =>
    intro len start hle
    have h0 : len = 0 := by omega
    subst h0
    rw [show buildBytes data start 0 = [] from by rw [buildBytes]; rfl]
    intro b hb
    simp at hb
  | succ fuel ih =>
    intro len start hle
    by_cases h0 : len = 0
    · subst h0
      rw [show buildBytes data start 0 = [] from by rw [buildBytes]; rfl]
      intro b hb
      simp at hb
    · by_cases h8 : len ≤ 8
      · rw [show buildBytes data start len = [bitsVal data start len] from by
          rw [buildBytes, if_neg h0, dif_pos h8]]
        intro b hb
        simp at hb
        subst hb
        calc bitsVal data start len < 2 ^ len := bitsVal_lt data start len
          _ ≤ 2 ^ 8 := Nat.pow_le_pow_right (by norm_num) h8
      · rw [show buildBytes data start len =
            bitsVal data start 8 :: buildBytes data (start + 8) (len - 8) from by
          rw [buildBytes, if_neg h0, dif_neg h8]]
        intro b hb
        rcases List.mem_cons.mp hb with hb | hb
        · subst hb
          exact bitsVal_lt data start 8
        · exact ih (len - 8) (start + 8) (by omega) b hb

theorem buildBytes_getD (data : List Nat) :
    ∀ (fuel len start j : Nat), len ≤ fuel → j < len →
      (buildBytes data start len).getD (j / 8) 0 / 2 ^ (j % 8) % 2 =
        get_bit data (start + j) := by
  intro fuel
  induction fuel with
  | zero => intro len start j hle hj; omega
  | succ fuel ih =>
    intro len start j hle hj
    have h0 : len ≠ 0 := by omega
    by_cases h8 : len ≤ 8
    · rw [show buildBytes data start len = [bitsVal data start len] from by
        rw [buildBytes, if_neg h0, dif_pos h8]]
      rw [Nat.div_eq_of_lt (by omega : j < 8), Nat.mod_eq_of_lt (by omega : j < 8)]
      exact bitsVal_div_mod data start len j hj
    · rw [show buildBytes data start len =
          bitsVal data start 8 :: buildBytes data (start + 8) (len - 8) from by
        rw [buildBytes, if_neg h0, dif_neg h8]]
      by_cases hj8 : j < 8
      · rw [Nat.div_eq_of_lt hj8, Nat.mod_eq_of_lt hj8]
        exact bitsVal_div_mod data start 8 j hj8
      · rw [show j / 8 = (j - 8) / 8 + 1 from by omega,
          show j % 8 = (j - 8) % 8 from by omega, List.getD_cons_succ]
        have h := ih (len - 8) (start + 8) (j - 8) (by omega) (by omega)
        rw [show start + 8 + (j - 8) = start + j from by omega] at h
        exact h

theorem buildBytes_last_high (data : List Nat) :
    ∀ (fuel len start : Nat), len ≤ fuel → len % 8 ≠ 0 →
      ∀ k, len % 8 ≤ k →
        (buildBytes data start len).getD (len / 8) 0 / 2 ^ k % 2 = 0 := by
  intro fuel
  induction fuel with
  | zero => intro len start hle hm k hk; omega
  | succ fuel ih =>
    intro len start hle hm k hk
    have h0 : len ≠ 0 := by omega
    by_cases h8 : len ≤ 8
    · have hlt : len < 8 := by omega
      rw [show buildBytes data start len = [bitsVal data start len] from by
        rw [buildBytes, if_neg h0, dif_pos h8]]
      rw [Nat.div_eq_of_lt hlt]
      exact bitsVal_div_high data start len k (by omega)
    · rw [show buildBytes data start len =
          bitsVal data start 8 :: buildBytes data (start + 8) (len - 8) from by
        rw [buildBytes, if_neg h0, dif_neg h8]]
      rw [show len / 8 = (len - 8) / 8 + 1 from by omega, List.getD_cons_succ]
      have h := ih (len - 8) (start + 8) (by omega) (by omega) k (by omega)
      exact h

/-- C1: for every buffer, every `start` and every `length >= 1` with the
bit range inside the buffer, `extract_raw_value` returns exactly
`ceil(length/8)` bytes (each below 256), output bit `j` — packed
LSB-first into successive output bytes — equals input bit `start + j`
(bit 0 being the LSB of buffer byte 0), and when `length` is not a
multiple of 8 the unused high-order bits of the final byte are zero. -/
theorem extract_raw_value_correct (data : List Nat) (start len : Nat)
    (hlen : 1 ≤ len) (hin : start + len ≤ 8 * data.length) :
    (extract_raw_value data start len).length = (len + 7) / 8 ∧
    (∀ b ∈ extract_raw_value data start len, b < 256) ∧
    (∀ j, j < len →
      ((extract_raw_value data start len).getD (j / 8) 0).testBit (j % 8) =
        (data.getD ((start + j) / 8) 0).testBit ((start + j) % 8)) ∧
    (len % 8 ≠ 0 → ∀ k, len % 8 ≤ k →
      ((extract_raw_value data start len).getD (len / 8) 0).testBit k = false) := by
  rw [extract_eq_buildBytes]
  refine ⟨buildBytes_length data len len start (Nat.le_refl len),
          buildBytes_bytes_lt data len len start (Nat.le_refl len), ?_, ?_⟩
  · intro j hj
    have h1 := buildBytes_getD data len len start j (Nat.le_refl len) hj
    have h2 := get_bit_div_mod data (start + j)
    rw [Nat.testBit_to_div_mod, Nat.testBit_to_div_mod, h1, h2]
  · intro hm k hk
    rw [Nat.testBit_to_div_mod,
      buildBytes_last_high data len len start (Nat.le_refl len) hm k hk]
    rfl

/-- Witness for C1 at buffer `[0x12, 0x34]`, `start = 1`, `length = 5`. -/
theorem extract_raw_value_correct_witness :
    (1 ≤ 5 ∧ 1 + 5 ≤ 8 * ([18, 52] : List Nat).length) ∧
    ((extract_raw_value [18, 52] 1 5).length = (5 + 7) / 8 ∧
    (∀ b ∈ extract_raw_value [18, 52] 1 5, b < 256) ∧
    (∀ j, j < 5 →
      ((extract_raw_value [18, 52] 1 5).getD (j / 8) 0).testBit (j % 8) =
        (([18, 52] : List Nat).getD ((1 + j) / 8) 0).testBit ((1 + j) % 8)) ∧
    (5 % 8 ≠ 0 → ∀ k, 5 % 8 ≤ k →
      ((extract_raw_value [18, 52] 1 5).getD (5 / 8) 0).testBit k = false)) :=
  ⟨⟨by norm_num, by norm_num⟩,
    extract_raw_value_correct [18, 52] 1 5 (by norm_num) (by norm_num)⟩

end PyBinMap

namespace PyBinMap

/-! ### UInt value calculation -/

theorem uint_enum_fold :
    ∀ (l : List Nat) (p0 r : Nat),
      (List.enumFrom p0 l).foldl (fun r pb => r + (1 <<< (8 * pb.1)) * pb.2) r =
        r + ∑ i ∈ Finset.range l.length, l.getD i 0 * 2 ^ (8 * (p0 + i)) := by
  intro l
  induction l with
  | nil => intro p0 r; simp
  | cons b t ih =>
    intro p0 r
    simp only [List.enumFrom, List.foldl_cons, List.length_cons]
    rw [ih (p0 + 1) (r + (1 <<< (8 * p0)) * b)]
    rw [Finset.sum_range_succ']
    simp only [List.getD_cons_succ, List.getD_cons_zero, Nat.shiftLeft_eq, one_mul]
    have hsum : ∀ i, t.getD i 0 * 2 ^ (8 * (p0 + 1 + i)) =
        t.getD i 0 * 2 ^ (8 * (p0 + (i + 1))) := by
      intro i
      congr 2
      omega
    rw [Finset.sum_congr rfl fun i _ => hsum i]
    ring

theorem uint_calc_nil (endian : String) : uint_calc endian [] = 0 := by
  rw [uint_calc]
  by_cases h : endian = "big" <;> simp [h, List.enum]

theorem uint_calc_little_sum (raw : List Nat) :
    uint_calc "little" raw =
      ∑ i ∈ Finset.range raw.length, raw.getD i 0 * 256 ^ i := by
  rw [uint_calc]
  have hne : ¬("little" = "big") := by decide
  rw [if_neg hne]
  show (List.enumFrom 0 raw).foldl _ 0 = _
  rw [uint_enum_fold raw 0 0]
  rw [Nat.zero_add]
  refine Finset.sum_congr rfl fun i _ => ?_
  rw [Nat.zero_add, pow_mul]
  norm_num

theorem uint_calc_big_reverse (raw : List Nat) :
    uint_calc "big" raw = uint_calc "little" raw.reverse := by
  rw [uint_calc, uint_calc]
  have hne : ¬("little" = "big") := by decide
  rw [if_pos rfl, if_neg hne]

theorem uint_calc_cons (b : Nat) (rest : List Nat) :
    uint_calc "little" (b :: rest) = b + 256 * uint_calc "little" rest := by
  rw [uint_calc_little_sum, uint_calc_little_sum]
  simp only [List.length_cons]
  rw [Finset.sum_range_succ']
  simp only [List.getD_cons_succ, List.getD_cons_zero, pow_zero, mul_one]
  rw [Finset.mul_sum]
  have hsum : ∀ i, rest.getD i 0 * 256 ^ (i + 1) = 256 * (rest.getD i 0 * 256 ^ i) := by
    intro i
    ring
  rw [Finset.sum_congr rfl fun i _ => hsum i]
  ring

theorem bitsVal_split (data : List Nat) :
    ∀ (k m start : Nat),
      bitsVal data start (m + k) =
        bitsVal data start m + 2 ^ m * bitsVal data (start + m) k := by
  intro k
  induction k with
  | zero => intro m start; simp [bitsVal]
  | succ k ih =>
    intro m start
    rw [show m + (k + 1) = (m + k) + 1 from rfl, bitsVal_succ, ih, bitsVal_succ]
    rw [show start + (m + k) = start + m + k from by omega]
    rw [pow_add]
    ring

theorem uint_little_buildBytes (data : List Nat) :
    ∀ (fuel len start : Nat), len ≤ fuel →
      uint_calc "little" (buildBytes data start len) = bitsVal data start len := by
  intro fuel
  induction fuel with
  | zero =>
    intro len start hle
    have h0 : len = 0 := by omega
    subst h0
    rw [show buildBytes data start 0 = [] from by rw [buildBytes]; rfl]
    rw [uint_calc_nil]
    rfl
  | succ fuel ih =>
    intro len start hle
    by_cases h0 : len = 0
    · subst h0
      rw [show buildBytes data start 0 = [] from by rw [buildBytes]; rfl]
      rw [uint_calc_nil]
      rfl
    · by_cases h8 : len ≤ 8
      · rw [show buildBytes data start len = [bitsVal data start len] from by
          rw [buildBytes, if_neg h0, dif_pos h8]]
        rw [uint_calc_cons, uint_calc_nil]
        ring
      · rw [show buildBytes data start len =
            bitsVal data start 8 :: buildBytes data (start + 8) (len - 8) from by
          rw [buildBytes, if_neg h0, dif_neg h8]]
        rw [uint_calc_cons, ih (len - 8) (start + 8) (by omega)]
        have hsplit := bitsVal_split data (len - 8) 8 start
        rw [show (8 : Nat) + (len - 8) = len from by omega] at hsplit
        rw [hsplit]
        norm_num

/-- C2: UInt decoding — with `endian = little` the value is the weighted
byte sum `sum raw[i] * 256^i`; with `endian = big` it is the same weighted
sum over the reversed raw byte sequence; on an extracted bit range (any
`length >= 1`, not only byte multiples) the little-endian value is exactly
the packed bit-range integer, and the big-endian value is the
little-endian value of the reversed bytes, so UInt decoding inverts
bit-packing for both endian settings; Bool decoding is the UInt value
compared against zero. -/
theorem uint_calc_correct :
    (∀ raw : List Nat,
      uint_calc "little" raw =
        ∑ i ∈ Finset.range raw.length, raw.getD i 0 * 256 ^ i ∧
      uint_calc "big" raw =
        ∑ i ∈ Finset.range raw.length, raw.reverse.getD i 0 * 256 ^ i) ∧
    (∀ (data : List Nat) (start len : Nat), 1 ≤ len →
      start + len ≤ 8 * data.length →
      uint_calc "little" (extract_raw_value data start len) =
        bitsVal data start len ∧
      uint_calc "big" (extract_raw_value data start len) =
        uint_calc "little" (extract_raw_value data start len).reverse) ∧
    (∀ (endian : String) (raw : List Nat),
      bool_calc endian raw = decide (uint_calc endian raw ≠ 0)) := by
  refine ⟨?_, ?_, ?_⟩
  · intro raw
    refine ⟨uint_calc_little_sum raw, ?_⟩
    rw [uint_calc_big_reverse, uint_calc_little_sum, List.length_reverse]
  · intro data start len hlen hin
    refine ⟨?_, uint_calc_big_reverse _⟩
    rw [extract_eq_buildBytes]
    exact uint_little_buildBytes data len len start (Nat.le_refl len)
  · intro endian raw
    rw [bool_calc]
    by_cases h : uint_calc endian raw = 0 <;> simp [h]

/-- Witness for C2 at buffer `[0x12, 0x34]`, `start = 1`, `length = 5`. -/
theorem uint_calc_correct_witness :
    (1 ≤ 5 ∧ 1 + 5 ≤ 8 * ([18, 52] : List Nat).length) ∧
    (uint_calc "little" (extract_raw_value [18, 52] 1 5) =
      bitsVal [18, 52] 1 5 ∧
    uint_calc "big" (extract_raw_value [18, 52] 1 5) =
      uint_calc "little" (extract_raw_value [18, 52] 1 5).reverse) :=
  ⟨⟨by norm_num, by norm_num⟩,
    uint_calc_correct.2.1 [18, 52] 1 5 (by norm_num) (by norm_num)⟩

end PyBinMap

namespace PyBinMap

/-! ### Char decoding, registry, construction, set_data -/

/-- C3 (code bug): `CharDataItem.calc_value` calls `decode('ascii')`
unconditionally, so the configured encoding has no effect: the raw bytes
`[0xC3, 0xA9]` form valid UTF-8 (the two-byte sequence for U+00E9), yet a
field configured with encoding `utf-8` fails to decode them, and in
general `char_calc` is the ascii decoder for every encoding value. -/
theorem char_calc_ignores_encoding :
    char_calc "utf-8" [195, 169] = none ∧
    (∀ (encoding : String) (raw : List Nat),
      char_calc encoding raw = char_calc "ascii" raw) :=
  ⟨by decide, fun _ _ => rfl⟩

theorem mkField_some_elim {dt : String} {p : Params} {e : RegEntry} {f : Field}
    (he : type_tbl dt = some e) (hf : mkField dt p = some f) :
    (∀ L, e.length = some L → f.length = L) ∧
    (∀ E, e.encoding = some E → f.encoding = E) := by
  rw [mkField, he] at hf
  cases hpn : p.name with
  | none => rw [hpn] at hf; simp at hf
  | some name =>
    cases hps : p.start with
    | none => rw [hpn, hps] at hf; simp at hf
    | some st =>
      cases hor : (e.length).or p.length with
      | none =>
        rw [hpn, hps] at hf
        simp [hor] at hf
      | some len =>
        rw [hpn, hps] at hf
        simp only [hor] at hf
        split_ifs at hf with hv
        injection hf with hf2
        subst hf2
        constructor
        · intro L hL
          rw [hL] at hor
          simp [Option.or] at hor
          simp [hor]
        · intro E hE
          rw [hE]
          simp [Option.or]

/-- C4: when `add` builds a field, the registry defaults for the tag are
applied after the caller-supplied keyword arguments (`kwargs.update(spec)`)
and overwrite any caller value for the same parameter name; in particular
tag `uint8` always yields length 8, whatever length the caller passed. -/
theorem registry_defaults_override :
    (∀ (dt : String) (p : Params) (e : RegEntry) (f : Field),
      type_tbl dt = some e → mkField dt p = some f →
      (∀ L, e.length = some L → f.length = L) ∧
      (∀ E, e.encoding = some E → f.encoding = E)) ∧
    (∀ (p : Params) (f : Field), mkField "uint8" p = some f → f.length = 8) :=
  ⟨fun _ _ _ _ he hf => mkField_some_elim he hf,
   fun _ _ hf =>
     (mkField_some_elim
       (show type_tbl "uint8" =
          some { kind := Kind.uint, length := some 8, encoding := none }
        from rfl) hf).1 8 rfl⟩

/-- Witness for C4: tag `uint8` with caller-supplied `length = 99`
produces a field of length 8. -/
theorem registry_defaults_override_witness :
    mkField "uint8"
        { name := some "x", start := some 0, length := some 99 } =
      some { dt := "uint8",
             args := { name := some "x", start := some 0, length := some 99 },
             name := "x", start := 0, length := 8, endian := "little",
             encoding := "ascii", kind := Kind.uint } ∧
    Field.length
      { dt := "uint8",
        args := { name := some "x", start := some 0, length := some 99 },
        name := "x", start := 0, length := 8, endian := "little",
        encoding := "ascii", kind := Kind.uint } = 8 :=
  ⟨rfl,
    registry_defaults_override.2
      { name := some "x", start := some 0, length := some 99 }
      { dt := "uint8",
        args := { name := some "x", start := some 0, length := some 99 },
        name := "x", start := 0, length := 8, endian := "little",
        encoding := "ascii", kind := Kind.uint }
      rfl⟩

/-- C5: a single item's `set_data` fails naming the item exactly when the
buffer has fewer than `end // 8 + 1` bytes (its byte length does not reach
the byte holding bit `end`); otherwise it computes `raw_value` via the
extraction engine and then `value` via the kind's `calc_value`. -/
theorem item_set_data_spec (f : Field) (data : List Nat) (hlen : 1 ≤ f.length) :
    (item_set_data f data = Except.error f.name ↔
      data.length < endBit f / 8 + 1) ∧
    (¬(data.length < endBit f / 8 + 1) →
      item_set_data f data =
        Except.ok (extract_raw_value data f.start f.length,
          calc_value f (extract_raw_value data f.start f.length))) := by
  constructor
  · constructor
    · intro h
      by_contra hc
      rw [item_set_data, if_neg hc] at h
      simp at h
    · intro h
      rw [item_set_data, if_pos h]
  · intro h
    rw [item_set_data, if_neg h]

/-- Witness for C5 at a 1-byte field over a 2-byte buffer. -/
theorem item_set_data_spec_witness :
    (1 ≤ Field.length
      { dt := "uint8", args := {}, name := "x", start := 4, length := 8,
        endian := "little", encoding := "ascii", kind := Kind.uint }) ∧
    ((item_set_data
        { dt := "uint8", args := {}, name := "x", start := 4, length := 8,
          endian := "little", encoding := "ascii", kind := Kind.uint }
        [18, 52] = Except.error "x" ↔
      ([18, 52] : List Nat).length <
        endBit { dt := "uint8", args := {}, name := "x", start := 4, length := 8,
                 endian := "little", encoding := "ascii", kind := Kind.uint } / 8 + 1) ∧
    (¬(([18, 52] : List Nat).length <
        endBit { dt := "uint8", args := {}, name := "x", start := 4, length := 8,
                 endian := "little", encoding := "ascii", kind := Kind.uint } / 8 + 1) →
      item_set_data
          { dt := "uint8", args := {}, name := "x", start := 4, length := 8,
            endian := "little", encoding := "ascii", kind := Kind.uint }
          [18, 52] =
        Except.ok (extract_raw_value [18, 52] 4 8,
          calc_value
            { dt := "uint8", args := {}, name := "x", start := 4, length := 8,
              endian := "little", encoding := "ascii", kind := Kind.uint }
            (extract_raw_value [18, 52] 4 8)))) :=
  ⟨by decide,
    item_set_data_spec
      { dt := "uint8", args := {}, name := "x", start := 4, length := 8,
        endian := "little", encoding := "ascii", kind := Kind.uint }
      [18, 52] (by decide)⟩

/-- C6 counterexample: the registry resolves neither `float` nor `double`
(the claim asserts both resolve to a Float kind with fixed lengths). -/
theorem type_tbl_float_missing :
    type_tbl "float" = none ∧ type_tbl "double" = none := by
  decide

/-- C6 (amended): the registry resolves exactly the closed tag set
`{raw, uint, uint8, uint16, uint32, uint64, ascii, utf8, bool, bool1,
bool8}` — with `uint8/16/32/64` fixing length 8/16/32/64, `bool1/bool8`
fixing length 1/8, `ascii`/`utf8` fixing the encoding — and resolving
any other tag (including `float` and `double`) fails. -/
theorem type_tbl_resolves :
    (type_tbl "raw" = some { kind := Kind.raw } ∧
     type_tbl "uint" = some { kind := Kind.uint } ∧
     type_tbl "uint8" = some { kind := Kind.uint, length := some 8 } ∧
     type_tbl "uint16" = some { kind := Kind.uint, length := some 16 } ∧
     type_tbl "uint32" = some { kind := Kind.uint, length := some 32 } ∧
     type_tbl "uint64" = some { kind := Kind.uint, length := some 64 } ∧
     type_tbl "ascii" = some { kind := Kind.char, encoding := some "ascii" } ∧
     type_tbl "utf8" = some { kind := Kind.char, encoding := some "utf-8" } ∧
     type_tbl "bool" = some { kind := Kind.bool } ∧
     type_tbl "bool1" = some { kind := Kind.bool, length := some 1 } ∧
     type_tbl "bool8" = some { kind := Kind.bool, length := some 8 }) ∧
    (∀ dt : String,
      dt ∉ ["raw", "uint", "uint8", "uint16", "uint32", "uint64", "ascii",
            "utf8", "bool", "bool1", "bool8"] →
      type_tbl dt = none) := by
  refine ⟨by decide, ?_⟩
  intro dt h
  simp only [List.mem_cons, List.not_mem_nil, or_false, not_or] at h
  obtain ⟨h1, h2, h3, h4, h5, h6, h7, h8, h9, h10, h11⟩ := h
  rw [type_tbl, if_neg h1, if_neg h2, if_neg h3, if_neg h4, if_neg h5,
    if_neg h6, if_neg h7, if_neg h8, if_neg h9, if_neg h10, if_neg h11]

/-- Witness for C6 at the unknown tag `float`. -/
theorem type_tbl_resolves_witness :
    ("float" ∉ ["raw", "uint", "uint8", "uint16", "uint32", "uint64", "ascii",
                "utf8", "bool", "bool1", "bool8"]) ∧
    type_tbl "float" = none :=
  ⟨by decide, type_tbl_resolves.2 "float" (by decide)⟩

end PyBinMap

namespace PyBinMap

/-! ### Container insertion: sortedness and stability -/

theorem mem_insertSorted (f g : Field) :
    ∀ l : List Field, g ∈ insertSorted f l ↔ g = f ∨ g ∈ l := by
  intro l
  induction l with
  | nil => simp [insertSorted]
  | cons x rest ih =>
    rw [insertSorted]
    by_cases h : f.start ≤ x.start
    · rw [if_pos h]
      simp
    · rw [if_neg h]
      simp [ih]
      tauto

theorem length_insertSorted (f : Field) :
    ∀ l : List Field, (insertSorted f l).length = l.length + 1 := by
  intro l
  induction l with
  | nil => rfl
  | cons x rest ih =>
    rw [insertSorted]
    by_cases h : f.start ≤ x.start
    · rw [if_pos h]
      rfl
    · rw [if_neg h]
      simp [ih]

theorem mem_sortByStart (g : Field) :
    ∀ l : List Field, g ∈ sortByStart l ↔ g ∈ l := by
  intro l
  induction l with
  | nil => simp [sortByStart]
  | cons x rest ih =>
    rw [sortByStart, mem_insertSorted]
    simp [ih]

theorem length_sortByStart :
    ∀ l : List Field, (sortByStart l).length = l.length := by
  intro l
  induction l with
  | nil => rfl
  | cons x rest ih =>
    rw [sortByStart, length_insertSorted]
    simp [ih]

theorem insertSorted_pairwise (f : Field) :
    ∀ l : List Field, List.Pairwise (fun a b => a.start ≤ b.start) l →
      List.Pairwise (fun a b => a.start ≤ b.start) (insertSorted f l) := by
  intro l
  induction l with
  | nil => intro h; simp [insertSorted]
  | cons x rest ih =>
    intro h
    rw [List.pairwise_cons] at h
    rw [insertSorted]
    by_cases hle : f.start ≤ x.start
    · rw [if_pos hle]
      refine List.Pairwise.cons ?_ (List.Pairwise.cons h.1 h.2)
      intro b hb
      rcases List.mem_cons.mp hb with hb | hb
      · subst hb; exact hle
      · exact le_trans hle (h.1 b hb)
    · rw [if_neg hle]
      refine List.Pairwise.cons ?_ (ih h.2)
      intro b hb
      rcases (mem_insertSorted f b rest).mp hb with hb | hb
      · subst hb; omega
      · exact h.1 b hb

theorem sortByStart_pairwise :
    ∀ l : List Field,
      List.Pairwise (fun a b => a.start ≤ b.start) (sortByStart l) := by
  intro l
  induction l with
  | nil => simp [sortByStart]
  | cons x rest ih => exact insertSorted_pairwise x (sortByStart rest) ih

theorem filter_insertSorted (f : Field) (s : Nat) :
    ∀ l : List Field,
      (insertSorted f l).filter (fun g => decide (g.start = s)) =
        if f.start = s then f :: l.filter (fun g => decide (g.start = s))
        else l.filter (fun g => decide (g.start = s)) := by
  intro l
  induction l with
  | nil =>
    rw [show insertSorted f [] = [f] from rfl]
    by_cases h : f.start = s <;> simp [List.filter, h]
  | cons x rest ih =>
    rw [insertSorted]
    by_cases hle : f.start ≤ x.start
    · rw [if_pos hle]
      by_cases h : f.start = s <;> simp [List.filter_cons, h]
    · rw [if_neg hle]
      rw [List.filter_cons, ih]
      by_cases h : f.start = s
      · have hx : ¬(x.start = s) := by omega
        simp [List.filter_cons, h, hx]
      · by_cases hx : x.start = s <;> simp [List.filter_cons, h, hx]

theorem filter_sortByStart (s : Nat) :
    ∀ l : List Field,
      (sortByStart l).filter (fun g => decide (g.start = s)) =
        l.filter (fun g => decide (g.start = s)) := by
  intro l
  induction l with
  | nil => rfl
  | cons x rest ih =>
    rw [sortByStart, filter_insertSorted, List.filter_cons]
    by_cases h : x.start = s <;> simp [h, ih]

theorem foldl_add_bd_filter (s : Nat) :
    ∀ (fs : List Field) (c0 : BinMap),
      ((fs.foldl add_bd c0).map_list).filter (fun g => decide (g.start = s)) =
        c0.map_list.filter (fun g => decide (g.start = s)) ++
          fs.filter (fun g => decide (g.start = s)) := by
  intro fs
  induction fs with
  | nil => intro c0; simp
  | cons f rest ih =>
    intro c0
    rw [List.foldl_cons, ih]
    rw [show (add_bd c0 f).map_list = sortByStart (c0.map_list ++ [f]) from rfl]
    rw [filter_sortByStart, List.filter_append, List.filter_cons]
    by_cases h : f.start = s <;> simp [h]

theorem foldl_add_bd_map_list_pairwise (fs : List Field) (c0 : BinMap)
    (h0 : List.Pairwise (fun a b => a.start ≤ b.start) c0.map_list) :
    List.Pairwise (fun a b => a.start ≤ b.start)
      ((fs.foldl add_bd c0).map_list) := by
  induction fs generalizing c0 with
  | nil => exact h0
  | cons f rest ih =>
    rw [List.foldl_cons]
    exact ih (add_bd c0 f) (sortByStart_pairwise (c0.map_list ++ [f]))

/-- C9: after any sequence of insertions the container's ordered item
list is sorted by non-decreasing start address, and the sort is stable:
for every start value `s`, the items with start `s` appear in exactly
their insertion order. -/
theorem container_sorted_stable (fs : List Field) :
    List.Pairwise (fun a b => a.start ≤ b.start)
      ((fs.foldl add_bd emptyBinMap).map_list) ∧
    ∀ s : Nat,
      ((fs.foldl add_bd emptyBinMap).map_list).filter (fun g => decide (g.start = s)) =
        fs.filter (fun g => decide (g.start = s)) :=
  ⟨foldl_add_bd_map_list_pairwise fs emptyBinMap (List.Pairwise.nil),
   fun s => foldl_add_bd_filter s fs emptyBinMap⟩

end PyBinMap

namespace PyBinMap

/-! ### The name index: Python dict assignment semantics -/

theorem lookup_map_overwrite (k : String) (v : Field) :
    ∀ d : List (String × Field), (d.lookup k).isSome →
      (d.map (fun p => if p.1 = k then (k, v) else p)).lookup k = some v := by
  intro d
  induction d with
  | nil => intro h; simp [List.lookup] at h
  | cons a rest ih =>
    intro h
    by_cases hak : a.1 = k
    · rw [List.map_cons, if_pos hak]
      simp [List.lookup]
    · rw [List.map_cons, if_neg hak]
      have hka : (k == a.1) = false := by
        rw [beq_eq_false_iff_ne]
        intro hx
        exact hak hx.symm
      simp only [List.lookup, hka] at h ⊢
      exact ih h

theorem lookup_append_new (k : String) (v : Field) :
    ∀ d : List (String × Field), d.lookup k = none →
      (d ++ [(k, v)]).lookup k = some v := by
  intro d
  induction d with
  | nil =>
    intro h
    simp [List.lookup]
  | cons a rest ih =>
    intro h
    cases hka : (k == a.1) with
    | true =>
      simp only [List.lookup, hka] at h
      simp at h
    | false =>
      simp only [List.lookup, hka] at h
      simp only [List.cons_append, List.lookup, hka]
      exact ih h

theorem lookup_dictSet (d : List (String × Field)) (k : String) (v : Field) :
    (dictSet d k v).lookup k = some v := by
  rw [dictSet]
  by_cases h : (d.lookup k).isSome
  · rw [if_pos h]
    exact lookup_map_overwrite k v d h
  · rw [if_neg h]
    exact lookup_append_new k v d (Option.not_isSome_iff_eq_none.mp h)

/-- C10: adding two items with the same name keeps both in the ordered
item list — interpretation visits both and yields both `(name, value)`
entries, and the list grows by two — while the name index maps the shared
name to the second item, so value lookup by name reads the second one. -/
theorem duplicate_name_keeps_list (c0 : BinMap) (f1 f2 : Field)
    (hname : f1.name = f2.name) (data : List Nat) :
    ((add_bd (add_bd c0 f1) f2).map_dict.lookup f2.name = some f2) ∧
    f1 ∈ (add_bd (add_bd c0 f1) f2).map_list ∧
    f2 ∈ (add_bd (add_bd c0 f1) f2).map_list ∧
    (add_bd (add_bd c0 f1) f2).map_list.length = c0.map_list.length + 2 ∧
    (containerValues (add_bd (add_bd c0 f1) f2) data).length =
      c0.map_list.length + 2 ∧
    (f1.name, item_set_data f1 data) ∈
      containerValues (add_bd (add_bd c0 f1) f2) data ∧
    (f2.name, item_set_data f2 data) ∈
      containerValues (add_bd (add_bd c0 f1) f2) data := by
  have hmem1 : f1 ∈ (add_bd (add_bd c0 f1) f2).map_list := by
    show f1 ∈ sortByStart ((add_bd c0 f1).map_list ++ [f2])
    rw [mem_sortByStart]
    refine List.mem_append_left _ ?_
    show f1 ∈ sortByStart (c0.map_list ++ [f1])
    rw [mem_sortByStart]
    exact List.mem_append_right _ (List.mem_singleton_self f1)
  have hmem2 : f2 ∈ (add_bd (add_bd c0 f1) f2).map_list := by
    show f2 ∈ sortByStart ((add_bd c0 f1).map_list ++ [f2])
    rw [mem_sortByStart]
    exact List.mem_append_right _ (List.mem_singleton_self f2)
  have hl : (add_bd (add_bd c0 f1) f2).map_list.length =
      c0.map_list.length + 2 := by
    show (sortByStart ((add_bd c0 f1).map_list ++ [f2])).length = _
    rw [length_sortByStart, List.length_append]
    show (sortByStart (c0.map_list ++ [f1])).length + 1 = _
    rw [length_sortByStart, List.length_append]
    rfl
  refine ⟨?_, hmem1, hmem2, hl, ?_, ?_, ?_⟩
  · exact lookup_dictSet (add_bd c0 f1).map_dict f2.name f2
  · rw [containerValues, List.length_map]
    exact hl
  · exact List.mem_map_of_mem (fun f => (f.name, item_set_data f data)) hmem1
  · exact List.mem_map_of_mem (fun f => (f.name, item_set_data f data)) hmem2

end PyBinMap

namespace PyBinMap

/-- Witness for C10: two items sharing the name `dup` added to an empty
container. -/
theorem duplicate_name_keeps_list_witness :
    (wfieldA.name = wfieldB.name) ∧
    (((add_bd (add_bd emptyBinMap wfieldA) wfieldB).map_dict.lookup
        wfieldB.name = some wfieldB) ∧
    wfieldA ∈ (add_bd (add_bd emptyBinMap wfieldA) wfieldB).map_list ∧
    wfieldB ∈ (add_bd (add_bd emptyBinMap wfieldA) wfieldB).map_list ∧
    (add_bd (add_bd emptyBinMap wfieldA) wfieldB).map_list.length =
      emptyBinMap.map_list.length + 2 ∧
    (containerValues (add_bd (add_bd emptyBinMap wfieldA) wfieldB) [1, 2]).length =
      emptyBinMap.map_list.length + 2 ∧
    (wfieldA.name, item_set_data wfieldA [1, 2]) ∈
      containerValues (add_bd (add_bd emptyBinMap wfieldA) wfieldB) [1, 2] ∧
    (wfieldB.name, item_set_data wfieldB [1, 2]) ∈
      containerValues (add_bd (add_bd emptyBinMap wfieldA) wfieldB) [1, 2]) :=
  ⟨rfl, duplicate_name_keeps_list emptyBinMap wfieldA wfieldB rfl [1, 2]⟩

end PyBinMap

namespace PyBinMap

/-! ### Descriptor round trip -/

theorem insertSorted_front (f : Field) :
    ∀ l : List Field, (∀ g ∈ l, f.start ≤ g.start) → insertSorted f l = f :: l := by
  intro l
  cases l with
  | nil => intro h; rfl
  | cons x rest =>
    intro h
    rw [insertSorted, if_pos (h x (List.mem_cons_self x rest))]

theorem sortByStart_of_sorted :
    ∀ l : List Field, List.Pairwise (fun a b => a.start ≤ b.start) l →
      sortByStart l = l := by
  intro l
  induction l with
  | nil => intro h; rfl
  | cons x rest ih =>
    intro h
    rw [List.pairwise_cons] at h
    rw [sortByStart, ih h.2, insertSorted_front x rest h.1]

theorem mkField_dt_args {dt : String} {p : Params} {f : Field}
    (hf : mkField dt p = some f) : f.dt = dt ∧ f.args = p := by
  rw [mkField] at hf
  cases he : type_tbl dt with
  | none => rw [he] at hf; simp at hf
  | some e =>
    rw [he] at hf
    cases hpn : p.name with
    | none => rw [hpn] at hf; simp at hf
    | some name =>
      cases hps : p.start with
      | none => rw [hpn, hps] at hf; simp at hf
      | some st =>
        cases hor : (e.length).or p.length with
        | none =>
          rw [hpn, hps] at hf
          simp [hor] at hf
        | some len =>
          rw [hpn, hps] at hf
          simp only [hor] at hf
          split_ifs at hf with hv
          injection hf with hf2
          subst hf2
          exact ⟨rfl, rfl⟩

theorem add_eq_of_mkField {dt : String} {p : Params} {f : Field} (c : BinMap)
    (hf : mkField dt p = some f) : add c dt p = some (add_bd c f) := by
  rw [add, hf]
  rfl

theorem add_from_spec_inv :
    ∀ (ds : List (String × Params)) (c0 c : BinMap),
      (∀ f ∈ c0.map_list, mkField f.dt f.args = some f) →
      add_from_spec c0 ds = some c →
      ∀ f ∈ c.map_list, mkField f.dt f.args = some f := by
  intro ds
  induction ds with
  | nil =>
    intro c0 c h0 h
    injection h with h2
    subst h2
    exact h0
  | cons d rest ih =>
    intro c0 c h0 h
    rw [add_from_spec] at h
    cases ha : add c0 d.1 d.2 with
    | none => rw [ha] at h; simp at h
    | some c2 =>
      rw [ha] at h
      refine ih c2 c ?_ h
      rw [add] at ha
      cases hmk : mkField d.1 d.2 with
      | none => rw [hmk] at ha; simp at ha
      | some g =>
        rw [hmk] at ha
        have ha1 : some (add_bd c0 g) = some c2 := ha
        injection ha1 with ha2
        subst ha2
        intro f hfmem
        have hfmem2 : f ∈ sortByStart (c0.map_list ++ [g]) := hfmem
        rw [mem_sortByStart] at hfmem2
        rcases List.mem_append.mp hfmem2 with hm | hm
        · exact h0 f hm
        · have hg : f = g := List.mem_singleton.mp hm
          subst hg
          obtain ⟨hdt, hargs⟩ := mkField_dt_args hmk
          rw [hdt, hargs]
          exact hmk

theorem add_from_spec_sorted :
    ∀ (ds : List (String × Params)) (c0 c : BinMap),
      List.Pairwise (fun a b => a.start ≤ b.start) c0.map_list →
      add_from_spec c0 ds = some c →
      List.Pairwise (fun a b => a.start ≤ b.start) c.map_list := by
  intro ds
  induction ds with
  | nil =>
    intro c0 c h0 h
    injection h with h2
    subst h2
    exact h0
  | cons d rest ih =>
    intro c0 c h0 h
    rw [add_from_spec] at h
    cases ha : add c0 d.1 d.2 with
    | none => rw [ha] at h; simp at h
    | some c2 =>
      rw [ha] at h
      refine ih c2 c ?_ h
      rw [add] at ha
      cases hmk : mkField d.1 d.2 with
      | none => rw [hmk] at ha; simp at ha
      | some g =>
        rw [hmk] at ha
        have ha1 : some (add_bd c0 g) = some c2 := ha
        injection ha1 with ha2
        subst ha2
        exact sortByStart_pairwise (c0.map_list ++ [g])

theorem replay_fields :
    ∀ (L : List Field) (c0 : BinMap),
      List.Pairwise (fun a b => a.start ≤ b.start) (c0.map_list ++ L) →
      (∀ f ∈ L, mkField f.dt f.args = some f) →
      ∃ c, add_from_spec c0 (L.map fun f => (f.dt, f.args)) = some c ∧
        c.map_list = c0.map_list ++ L := by
  intro L
  induction L with
  | nil =>
    intro c0 hs hL
    exact ⟨c0, rfl, by simp⟩
  | cons f rest ih =>
    intro c0 hs hL
    have hf : mkField f.dt f.args = some f := hL f (List.mem_cons_self f rest)
    have hsub : (c0.map_list ++ [f]).Sublist (c0.map_list ++ f :: rest) :=
      List.Sublist.append_left ((List.nil_sublist rest).cons₂ f) c0.map_list
    have hs1 : List.Pairwise (fun a b => a.start ≤ b.start)
        (c0.map_list ++ [f]) := List.Pairwise.sublist hsub hs
    have hlist : (add_bd c0 f).map_list = c0.map_list ++ [f] := by
      show sortByStart (c0.map_list ++ [f]) = c0.map_list ++ [f]
      exact sortByStart_of_sorted _ hs1
    have hs2 : List.Pairwise (fun a b => a.start ≤ b.start)
        ((add_bd c0 f).map_list ++ rest) := by
      rw [hlist, List.append_assoc]
      simpa using hs
    obtain ⟨c, hc, hcl⟩ :=
      ih (add_bd c0 f) hs2 (fun g hg => hL g (List.mem_cons_of_mem f hg))
    refine ⟨c, ?_, ?_⟩
    · rw [List.map_cons, add_from_spec, add_eq_of_mkField c0 hf]
      exact hc
    · rw [hcl, hlist, List.append_assoc]
      rfl

/-- C8: replaying a container's descriptor sequence (`get_spec`) through
`add_from_spec` on a fresh container rebuilds the identical ordered item
list, so applying the same buffer reproduces the identical ordered
`(name, value)` sequence. -/
theorem round_trip_spec (ds : List (String × Params)) (c : BinMap)
    (h : add_from_spec emptyBinMap ds = some c) (data : List Nat) :
    ∃ c2, add_from_spec emptyBinMap (get_spec c) = some c2 ∧
      containerValues c2 data = containerValues c data := by
  have hinv : ∀ f ∈ c.map_list, mkField f.dt f.args = some f :=
    add_from_spec_inv ds emptyBinMap c (by intro f hf; simp [emptyBinMap] at hf) h
  have hsor : List.Pairwise (fun a b => a.start ≤ b.start) c.map_list :=
    add_from_spec_sorted ds emptyBinMap c List.Pairwise.nil h
  obtain ⟨c2, h2, hml⟩ :=
    replay_fields c.map_list emptyBinMap (by simpa using hsor) hinv
  refine ⟨c2, h2, ?_⟩
  rw [containerValues, containerValues, hml]
  rfl

/-- Witness for C8: a two-descriptor container replayed. -/
theorem round_trip_spec_witness :
    add_from_spec emptyBinMap
        [("uint8", { name := some "a", start := some 0 }),
         ("bool1", { name := some "b", start := some 8 })] = some wBinMap ∧
    (∃ c2, add_from_spec emptyBinMap (get_spec wBinMap) = some c2 ∧
      containerValues c2 [18, 52] = containerValues wBinMap [18, 52]) :=
  ⟨by decide,
    round_trip_spec
      [("uint8", { name := some "a", start := some 0 }),
       ("bool1", { name := some "b", start := some 8 })]
      wBinMap (by decide) [18, 52]⟩

end PyBinMap

namespace PyBinMap

/-! ### Gap filler: chain lemmas over non-overlapping sorted fields -/

theorem pairwise_to_chain :
    ∀ l : List Field,
      List.Pairwise (fun a b => a.start ≤ b.start) l →
      List.Pairwise (fun a b => endBit a < b.start ∨ endBit b < a.start) l →
      (∀ f ∈ l, 1 ≤ f.length) →
      List.Chain' (fun a b => endBit a < b.start) l := by
  intro l
  induction l with
  | nil => intro _ _ _; exact List.chain'_nil
  | cons x rest ih =>
    intro hs hd hl
    rw [List.pairwise_cons] at hs hd
    cases rest with
    | nil => exact List.chain'_singleton x
    | cons y rest2 =>
      refine List.Chain'.cons ?_ (ih hs.2 hd.2 (fun f hf => hl f (List.mem_cons_of_mem x hf)))
      have h1 : x.start ≤ y.start := hs.1 y (List.mem_cons_self y rest2)
      have h2 := hd.1 y (List.mem_cons_self y rest2)
      have h3 : 1 ≤ y.length := hl y (List.mem_cons_of_mem x (List.mem_cons_self y rest2))
      rcases h2 with h2 | h2
      · exact h2
      · rw [endBit] at h2
        omega

theorem chain_start_lt :
    ∀ (l : List Field) (x : Field),
      List.Chain' (fun a b => endBit a < b.start) (x :: l) →
      (∀ f ∈ x :: l, 1 ≤ f.length) →
      ∀ f ∈ l, endBit x < f.start := by
  intro l
  induction l with
  | nil => intro x _ _ f hf; simp at hf
  | cons y rest ih =>
    intro x hc hl f hf
    rw [List.chain'_cons] at hc
    rcases List.mem_cons.mp hf with hf | hf
    · subst hf; exact hc.1
    · have hy : endBit y < f.start :=
        ih y hc.2 (fun g hg => hl g (List.mem_cons_of_mem x hg)) f hf
      have hylen : 1 ≤ y.length :=
        hl y (List.mem_cons_of_mem x (List.mem_cons_self y rest))
      have : y.start ≤ endBit y := by rw [endBit]; omega
      omega

theorem ends_le_lastEnd :
    ∀ (l : List Field) (x : Field),
      List.Chain' (fun a b => endBit a < b.start) (x :: l) →
      (∀ f ∈ x :: l, 1 ≤ f.length) →
      ∀ f ∈ x :: l, endBit f ≤ lastEnd (x :: l) := by
  intro l
  induction l with
  | nil =>
    intro x _ _ f hf
    rcases List.mem_cons.mp hf with hf | hf
    · subst hf
      simp [lastEnd]
    · simp at hf
  | cons y rest ih =>
    intro x hc hl f hf
    rw [List.chain'_cons] at hc
    have hlast : lastEnd (x :: y :: rest) = lastEnd (y :: rest) := by
      rw [lastEnd, lastEnd, List.getLast?_cons_cons]
    rw [hlast]
    have htail : ∀ g ∈ y :: rest, 1 ≤ g.length :=
      fun g hg => hl g (List.mem_cons_of_mem x hg)
    rcases List.mem_cons.mp hf with hf | hf
    · rw [hf]
      have hy : endBit x < y.start := hc.1
      have hye : endBit y ≤ lastEnd (y :: rest) :=
        ih y hc.2 htail y (List.mem_cons_self y rest)
      have hylen : 1 ≤ y.length := htail y (List.mem_cons_self y rest)
      have : y.start ≤ endBit y := by rw [endBit]; omega
      omega
    · exact ih y hc.2 htail f hf

theorem gaps_lb :
    ∀ (l : List Field) (x : Field),
      List.Chain' (fun a b => endBit a < b.start) (x :: l) →
      (∀ f ∈ x :: l, 1 ≤ f.length) →
      ∀ sp ∈ gapsBetween (x :: l), endBit x < sp.1 := by
  intro l
  induction l with
  | nil => intro x _ _ sp hsp; simp [gapsBetween] at hsp
  | cons y rest ih =>
    intro x hc hl sp hsp
    rw [List.chain'_cons] at hc
    rw [gapsBetween] at hsp
    rcases List.mem_append.mp hsp with hsp | hsp
    · by_cases hg : endBit x + 1 < y.start
      · rw [if_pos hg] at hsp
        rcases List.mem_singleton.mp hsp with rfl
        omega
      · rw [if_neg hg] at hsp
        simp at hsp
    · have hy : endBit y < sp.1 :=
        ih y hc.2 (fun g hg => hl g (List.mem_cons_of_mem x hg)) sp hsp
      have hylen : 1 ≤ y.length :=
        hl y (List.mem_cons_of_mem x (List.mem_cons_self y rest))
      have h1 : endBit x < y.start := hc.1
      have : y.start ≤ endBit y := by rw [endBit]; omega
      omega

theorem gaps_bounds :
    ∀ l : List Field, ∀ sp ∈ gapsBetween l, sp.1 ≤ sp.2 := by
  intro l
  induction l with
  | nil => intro sp hsp; simp [gapsBetween] at hsp
  | cons x rest ih =>
    intro sp hsp
    cases rest with
    | nil => simp [gapsBetween] at hsp
    | cons y rest2 =>
      rw [gapsBetween] at hsp
      rcases List.mem_append.mp hsp with hsp | hsp
      · by_cases hg : endBit x + 1 < y.start
        · rw [if_pos hg] at hsp
          rcases List.mem_singleton.mp hsp with rfl
          simp only []
          omega
        · rw [if_neg hg] at hsp
          simp at hsp
      · exact ih sp hsp

theorem gaps_disjoint :
    ∀ l : List Field,
      List.Chain' (fun a b => endBit a < b.start) l →
      (∀ f ∈ l, 1 ≤ f.length) →
      ∀ sp ∈ gapsBetween l, ∀ f ∈ l, sp.2 < f.start ∨ endBit f < sp.1 := by
  intro l
  induction l with
  | nil => intro _ _ sp hsp; simp [gapsBetween] at hsp
  | cons x rest ih =>
    intro hc hl sp hsp f hf
    cases rest with
    | nil => simp [gapsBetween] at hsp
    | cons y rest2 =>
      rw [List.chain'_cons] at hc
      have htail : ∀ g ∈ y :: rest2, 1 ≤ g.length :=
        fun g hg => hl g (List.mem_cons_of_mem x hg)
      have hylen : 1 ≤ y.length := htail y (List.mem_cons_self y rest2)
      have hyse : y.start ≤ endBit y := by rw [endBit]; omega
      rw [gapsBetween] at hsp
      rcases List.mem_append.mp hsp with hsp1 | hsp2
      · by_cases hg : endBit x + 1 < y.start
        · rw [if_pos hg] at hsp1
          have hspx := List.mem_singleton.mp hsp1
          rw [hspx]
          simp only []
          rcases List.mem_cons.mp hf with hfx | hfr
          · rw [hfx]
            right
            omega
          · left
            have hys : y.start ≤ f.start := by
              rcases List.mem_cons.mp hfr with hfy | hfr2
              · rw [hfy]
              · have := chain_start_lt rest2 y hc.2 htail f hfr2
                omega
            omega
        · rw [if_neg hg] at hsp1
          simp at hsp1
      · rcases List.mem_cons.mp hf with hfx | hfr
        · rw [hfx]
          right
          have hy := gaps_lb rest2 y hc.2 htail sp hsp2
          have h1 : endBit x < y.start := hc.1
          omega
        · exact ih hc.2 htail sp hsp2 f hfr

theorem cover_core :
    ∀ (l : List Field) (f0 : Field),
      List.Chain' (fun a b => endBit a < b.start) (f0 :: l) →
      (∀ f ∈ f0 :: l, 1 ≤ f.length) →
      ∀ x, f0.start ≤ x → x ≤ lastEnd (f0 :: l) →
        (∃ f ∈ f0 :: l, f.start ≤ x ∧ x ≤ endBit f) ∨
        (∃ sp ∈ gapsBetween (f0 :: l), sp.1 ≤ x ∧ x ≤ sp.2) := by
  intro l
  induction l with
  | nil =>
    intro f0 _ _ x hx1 hx2
    left
    refine ⟨f0, List.mem_cons_self f0 [], hx1, ?_⟩
    simpa [lastEnd] using hx2
  | cons y rest ih =>
    intro f0 hc hl x hx1 hx2
    rw [List.chain'_cons] at hc
    have htail : ∀ g ∈ y :: rest, 1 ≤ g.length :=
      fun g hg => hl g (List.mem_cons_of_mem f0 hg)
    have hlast : lastEnd (f0 :: y :: rest) = lastEnd (y :: rest) := by
      rw [lastEnd, lastEnd, List.getLast?_cons_cons]
    by_cases hxe : x ≤ endBit f0
    · left
      exact ⟨f0, List.mem_cons_self f0 (y :: rest), hx1, hxe⟩
    · by_cases hxy : x < y.start
      · right
        have hcond : endBit f0 + 1 < y.start := by omega
        refine ⟨(endBit f0 + 1, y.start - 1), ?_, by omega, by omega⟩
        rw [gapsBetween, if_pos hcond]
        exact List.mem_append_left _ (List.mem_singleton_self _)
      · have hx1' : y.start ≤ x := by omega
        have hx2' : x ≤ lastEnd (y :: rest) := by rw [hlast] at hx2; exact hx2
        rcases ih y hc.2 htail x hx1' hx2' with ⟨f, hf, hfs⟩ | ⟨sp, hsp, hsps⟩
        · exact Or.inl ⟨f, List.mem_cons_of_mem f0 hf, hfs⟩
        · refine Or.inr ⟨sp, ?_, hsps⟩
          rw [gapsBetween]
          exact List.mem_append_right _ hsp

end PyBinMap

namespace PyBinMap

/-! ### Gap filler: spans and synthetic fields -/

theorem mkUnmappedField_start (k s e : Nat) : (mkUnmappedField k s e).start = s := rfl

theorem mkUnmappedField_kind (k s e : Nat) :
    (mkUnmappedField k s e).kind = Kind.raw := rfl

theorem mkUnmappedField_name (k s e : Nat) :
    (mkUnmappedField k s e).name = "unmapped_" ++ pad3 k := rfl

theorem mkUnmappedField_endBit (k s e : Nat) (h : s ≤ e) :
    endBit (mkUnmappedField k s e) = e := by
  rw [endBit, mkUnmappedField]
  simp only []
  omega

theorem fillSpans_nil (ea : Option Nat) : fillSpans [] ea = [] := rfl

theorem fillSpans_cons (f0 : Field) (rest : List Field) (ea : Option Nat) :
    fillSpans (f0 :: rest) ea =
      (if 0 < f0.start then [(0, f0.start - 1)] else []) ++
        gapsBetween (f0 :: rest) ++
        (match ea with
         | some e =>
           if lastEnd (f0 :: rest) < e then [(lastEnd (f0 :: rest) + 1, e)]
           else []
         | none => []) := rfl

theorem fillSpans_bounds :
    ∀ (l : List Field) (ea : Option Nat), ∀ sp ∈ fillSpans l ea, sp.1 ≤ sp.2 := by
  intro l ea sp hsp
  cases l with
  | nil =>
    rw [fillSpans_nil] at hsp
    simp at hsp
  | cons f0 rest =>
    rw [fillSpans_cons] at hsp
    rcases List.mem_append.mp hsp with hsp | hsp
    · rcases List.mem_append.mp hsp with hsp | hsp
      · by_cases hc : 0 < f0.start
        · rw [if_pos hc] at hsp
          have := List.mem_singleton.mp hsp
          rw [this]
          simp
        · rw [if_neg hc] at hsp
          simp at hsp
      · exact gaps_bounds (f0 :: rest) sp hsp
    · cases ea with
      | none =>
        have hsp2 : sp ∈ ([] : List (Nat × Nat)) := hsp
        simp at hsp2
      | some e =>
        have hsp2 : sp ∈ (if lastEnd (f0 :: rest) < e then
            [(lastEnd (f0 :: rest) + 1, e)] else []) := hsp
        by_cases hc : lastEnd (f0 :: rest) < e
        · rw [if_pos hc] at hsp2
          have := List.mem_singleton.mp hsp2
          rw [this]
          simp only []
          omega
        · rw [if_neg hc] at hsp2
          simp at hsp2

theorem fillSpans_head (f0 : Field) (rest : List Field) (ea : Option Nat)
    (h : 0 < f0.start) : (0, f0.start - 1) ∈ fillSpans (f0 :: rest) ea := by
  rw [fillSpans_cons]
  refine List.mem_append_left _ (List.mem_append_left _ ?_)
  rw [if_pos h]
  exact List.mem_singleton_self _

theorem fillSpans_gaps (f0 : Field) (rest : List Field) (ea : Option Nat) :
    ∀ sp ∈ gapsBetween (f0 :: rest), sp ∈ fillSpans (f0 :: rest) ea := by
  intro sp hsp
  rw [fillSpans_cons]
  exact List.mem_append_left _ (List.mem_append_right _ hsp)

theorem fillSpans_trailing (f0 : Field) (rest : List Field) (e : Nat)
    (h : lastEnd (f0 :: rest) < e) :
    (lastEnd (f0 :: rest) + 1, e) ∈ fillSpans (f0 :: rest) (some e) := by
  rw [fillSpans_cons]
  refine List.mem_append_right _ ?_
  show (lastEnd (f0 :: rest) + 1, e) ∈
    (if lastEnd (f0 :: rest) < e then [(lastEnd (f0 :: rest) + 1, e)] else [])
  rw [if_pos h]
  exact List.mem_singleton_self _

theorem gaps_mem_of_get :
    ∀ (l : List Field) (i : Nat) (a b : Field),
      l.get? i = some a → l.get? (i + 1) = some b → endBit a + 1 < b.start →
      (endBit a + 1, b.start - 1) ∈ gapsBetween l := by
  intro l
  induction l with
  | nil => intro i a b ha hb hg; simp at ha
  | cons x rest ih =>
    intro i a b ha hb hg
    cases i with
    | zero =>
      simp only [List.get?] at ha
      injection ha with ha2
      subst ha2
      cases rest with
      | nil => simp [List.get?] at hb
      | cons y rest2 =>
        simp only [List.get?] at hb
        injection hb with hb2
        subst hb2
        rw [gapsBetween, if_pos hg]
        exact List.mem_append_left _ (List.mem_singleton_self _)
    | succ j =>
      simp only [List.get?] at ha hb
      have hmem := ih j a b ha hb hg
      cases rest with
      | nil => simp [gapsBetween] at hmem
      | cons y rest2 =>
        rw [gapsBetween]
        exact List.mem_append_right _ hmem

theorem synthFields_length :
    ∀ (spans : List (Nat × Nat)) (cnt : Nat),
      (synthFields cnt spans).length = spans.length := by
  intro spans
  induction spans with
  | nil => intro cnt; rfl
  | cons sp rest ih =>
    intro cnt
    rw [show synthFields cnt (sp :: rest) =
        mkUnmappedField cnt sp.1 sp.2 :: synthFields (cnt + 1) rest from rfl]
    simp [ih]

theorem synthFields_get :
    ∀ (spans : List (Nat × Nat)) (cnt i : Nat) (sp : Nat × Nat),
      spans.get? i = some sp →
      (synthFields cnt spans).get? i =
        some (mkUnmappedField (cnt + i) sp.1 sp.2) := by
  intro spans
  induction spans with
  | nil => intro cnt i sp h; simp at h
  | cons q rest ih =>
    intro cnt i sp h
    rw [show synthFields cnt (q :: rest) =
        mkUnmappedField cnt q.1 q.2 :: synthFields (cnt + 1) rest from rfl]
    cases i with
    | zero =>
      simp only [List.get?] at h
      injection h with h2
      subst h2
      simp [List.get?]
    | succ j =>
      simp only [List.get?] at h
      simp only [List.get?]
      have := ih (cnt + 1) j sp h
      rw [this]
      rw [show cnt + 1 + j = cnt + (j + 1) from by omega]

theorem mem_synthFields :
    ∀ (spans : List (Nat × Nat)) (cnt : Nat) (g : Field),
      g ∈ synthFields cnt spans →
      ∃ sp ∈ spans, ∃ k, g = mkUnmappedField k sp.1 sp.2 := by
  intro spans
  induction spans with
  | nil => intro cnt g h; simp [synthFields] at h
  | cons q rest ih =>
    intro cnt g h
    rw [show synthFields cnt (q :: rest) =
        mkUnmappedField cnt q.1 q.2 :: synthFields (cnt + 1) rest from rfl] at h
    rcases List.mem_cons.mp h with h | h
    · exact ⟨q, List.mem_cons_self q rest, cnt, h⟩
    · obtain ⟨sp, hsp, k, hk⟩ := ih (cnt + 1) g h
      exact ⟨sp, List.mem_cons_of_mem q hsp, k, hk⟩

theorem span_to_synth :
    ∀ (spans : List (Nat × Nat)) (cnt : Nat) (sp : Nat × Nat),
      sp ∈ spans →
      ∃ k, mkUnmappedField k sp.1 sp.2 ∈ synthFields cnt spans := by
  intro spans
  induction spans with
  | nil => intro cnt sp h; simp at h
  | cons q rest ih =>
    intro cnt sp h
    rw [show synthFields cnt (q :: rest) =
        mkUnmappedField cnt q.1 q.2 :: synthFields (cnt + 1) rest from rfl]
    rcases List.mem_cons.mp h with h | h
    · rw [h]
      exact ⟨cnt, List.mem_cons_self _ _⟩
    · obtain ⟨k, hk⟩ := ih (cnt + 1) sp h
      exact ⟨k, List.mem_cons_of_mem _ hk⟩

theorem foldl_add_bd_mem :
    ∀ (S : List Field) (c0 : BinMap) (g : Field),
      g ∈ (S.foldl add_bd c0).map_list ↔ g ∈ c0.map_list ∨ g ∈ S := by
  intro S
  induction S with
  | nil => intro c0 g; simp
  | cons f rest ih =>
    intro c0 g
    rw [List.foldl_cons, ih]
    have : g ∈ (add_bd c0 f).map_list ↔ g ∈ c0.map_list ∨ g = f := by
      show g ∈ sortByStart (c0.map_list ++ [f]) ↔ _
      rw [mem_sortByStart]
      simp
    rw [this]
    simp
    tauto

theorem fill_unmapped_eq (c : BinMap) (ea : Option Nat)
    (hne : c.map_list ≠ []) :
    fill_unmapped c ea =
      some { (synthFields c.ucnt (fillSpans c.map_list ea)).foldl add_bd c with
             ucnt := c.ucnt +
               (synthFields c.ucnt (fillSpans c.map_list ea)).length } := by
  rw [fill_unmapped]
  split
  · next heq => exact absurd heq hne
  · rfl

end PyBinMap

namespace PyBinMap

theorem fillSpans_disjoint (f0 : Field) (rest : List Field) (ea : Option Nat)
    (hc : List.Chain' (fun a b => endBit a < b.start) (f0 :: rest))
    (hl : ∀ f ∈ f0 :: rest, 1 ≤ f.length) :
    ∀ sp ∈ fillSpans (f0 :: rest) ea, ∀ f ∈ f0 :: rest,
      sp.2 < f.start ∨ endBit f < sp.1 := by
  intro sp hsp f hf
  rw [fillSpans_cons] at hsp
  rcases List.mem_append.mp hsp with hsp | hsp
  · rcases List.mem_append.mp hsp with hsp | hsp
    · by_cases hc0 : 0 < f0.start
      · rw [if_pos hc0] at hsp
        have hspx := List.mem_singleton.mp hsp
        rw [hspx]
        simp only []
        left
        rcases List.mem_cons.mp hf with hf | hf
        · rw [hf]; omega
        · have := chain_start_lt rest f0 hc hl f hf
          have hf0len : 1 ≤ f0.length := hl f0 (List.mem_cons_self f0 rest)
          rw [endBit] at this
          omega
      · rw [if_neg hc0] at hsp
        simp at hsp
    · exact gaps_disjoint (f0 :: rest) hc hl sp hsp f hf
  · cases ea with
    | none =>
      have h2 : sp ∈ ([] : List (Nat × Nat)) := hsp
      simp at h2
    | some e =>
      have h2 : sp ∈ (if lastEnd (f0 :: rest) < e then
          [(lastEnd (f0 :: rest) + 1, e)] else []) := hsp
      by_cases hce : lastEnd (f0 :: rest) < e
      · rw [if_pos hce] at h2
        have hspx := List.mem_singleton.mp h2
        rw [hspx]
        simp only []
        right
        have := ends_le_lastEnd rest f0 hc hl f hf
        omega
      · rw [if_neg hce] at h2
        simp at h2

/-- C7: on a non-empty container of mutually non-overlapping sorted
fields, `fill_unmapped` inserts a synthetic Raw field for the leading
span `[0, first.start - 1]` when the first field starts after bit 0, one
for every inter-field gap `[a.end + 1, b.start - 1]`, and one for the
trailing span `[last.end + 1, end_addr]` when `end_addr` exceeds the last
end; the `i`-th synthetic field is the Raw field named
`"unmapped_" ++ pad3 (counter + i)`, the counter advancing once per
insertion; no synthetic field overlaps a pre-existing field, and the
resulting fields cover `[0, last.end]` (extended to `end_addr` when
given) contiguously. -/
theorem fill_unmapped_correct (c : BinMap) (endAddr : Option Nat)
    (hne : c.map_list ≠ [])
    (hsort : List.Pairwise (fun a b => a.start ≤ b.start) c.map_list)
    (hdisj : List.Pairwise
      (fun a b => endBit a < b.start ∨ endBit b < a.start) c.map_list)
    (hlen : ∀ f ∈ c.map_list, 1 ≤ f.length) :
    ∃ c2, fill_unmapped c endAddr = some c2 ∧
      (∀ g, g ∈ c2.map_list ↔
        g ∈ c.map_list ∨
          g ∈ synthFields c.ucnt (fillSpans c.map_list endAddr)) ∧
      (∀ f0 rest, c.map_list = f0 :: rest → 0 < f0.start →
        (0, f0.start - 1) ∈ fillSpans c.map_list endAddr) ∧
      (∀ i a b, c.map_list.get? i = some a →
        c.map_list.get? (i + 1) = some b → endBit a + 1 < b.start →
        (endBit a + 1, b.start - 1) ∈ fillSpans c.map_list endAddr) ∧
      (∀ e, endAddr = some e → lastEnd c.map_list < e →
        (lastEnd c.map_list + 1, e) ∈ fillSpans c.map_list endAddr) ∧
      (∀ i sp, (fillSpans c.map_list endAddr).get? i = some sp →
        (synthFields c.ucnt (fillSpans c.map_list endAddr)).get? i =
          some (mkUnmappedField (c.ucnt + i) sp.1 sp.2)) ∧
      (∀ k s e, (mkUnmappedField k s e).name = "unmapped_" ++ pad3 k) ∧
      (∀ g ∈ synthFields c.ucnt (fillSpans c.map_list endAddr),
        g.kind = Kind.raw) ∧
      c2.ucnt = c.ucnt + (fillSpans c.map_list endAddr).length ∧
      (∀ g ∈ synthFields c.ucnt (fillSpans c.map_list endAddr),
        ∀ f ∈ c.map_list, endBit g < f.start ∨ endBit f < g.start) ∧
      (∀ x, x ≤ (match endAddr with
                 | some e => max (lastEnd c.map_list) e
                 | none => lastEnd c.map_list) →
        ∃ g ∈ c2.map_list, g.start ≤ x ∧ x ≤ endBit g) := by
  obtain ⟨f0, rest, hml⟩ : ∃ f0 rest, c.map_list = f0 :: rest := by
    cases hm : c.map_list with
    | nil => exact absurd hm hne
    | cons a b => exact ⟨a, b, rfl⟩
  have hchain : List.Chain' (fun a b => endBit a < b.start) c.map_list :=
    pairwise_to_chain c.map_list hsort hdisj hlen
  have hchain2 : List.Chain' (fun a b => endBit a < b.start) (f0 :: rest) := by
    rw [hml] at hchain; exact hchain
  have hlen2 : ∀ f ∈ f0 :: rest, 1 ≤ f.length := by
    rw [hml] at hlen; exact hlen
  refine ⟨_, fill_unmapped_eq c endAddr hne, ?_, ?_, ?_, ?_, ?_, ?_, ?_, ?_, ?_, ?_⟩
  · intro g
    exact foldl_add_bd_mem _ c g
  · intro f0a resta hm h0
    rw [hm]
    exact fillSpans_head f0a resta endAddr h0
  · intro i a b ha hb hg
    rw [hml]
    rw [hml] at ha hb
    exact fillSpans_gaps f0 rest endAddr _
      (gaps_mem_of_get (f0 :: rest) i a b ha hb hg)
  · intro e he hlt
    subst he
    rw [hml]
    rw [hml] at hlt
    exact fillSpans_trailing f0 rest e hlt
  · intro i sp h
    exact synthFields_get _ c.ucnt i sp h
  · intro k s e
    rfl
  · intro g hg
    obtain ⟨sp, _, k, hk⟩ := mem_synthFields _ c.ucnt g hg
    rw [hk]
    rfl
  · show c.ucnt + (synthFields c.ucnt (fillSpans c.map_list endAddr)).length =
      c.ucnt + (fillSpans c.map_list endAddr).length
    rw [synthFields_length]
  · intro g hg f hf
    obtain ⟨sp, hsp, k, hk⟩ := mem_synthFields _ c.ucnt g hg
    have hbnd := fillSpans_bounds c.map_list endAddr sp hsp
    have hdisj2 : sp.2 < f.start ∨ endBit f < sp.1 := by
      rw [hml] at hsp hf
      exact fillSpans_disjoint f0 rest endAddr hchain2 hlen2 sp hsp f hf
    rw [hk, mkUnmappedField_endBit k sp.1 sp.2 hbnd, mkUnmappedField_start]
    exact hdisj2
  · intro x hx
    have hlenf0 : 1 ≤ f0.length := hlen2 f0 (List.mem_cons_self f0 rest)
    by_cases hxf : x < f0.start
    · have h0 : 0 < f0.start := by omega
      have hsp : (0, f0.start - 1) ∈ fillSpans c.map_list endAddr := by
        rw [hml]
        exact fillSpans_head f0 rest endAddr h0
      obtain ⟨k, hk⟩ := span_to_synth _ c.ucnt _ hsp
      refine ⟨mkUnmappedField k 0 (f0.start - 1),
        (foldl_add_bd_mem _ c _).mpr (Or.inr hk), ?_, ?_⟩
      · rw [mkUnmappedField_start]
        omega
      · rw [mkUnmappedField_endBit _ _ _ (by omega : (0 : Nat) ≤ f0.start - 1)]
        omega
    · by_cases hxl : x ≤ lastEnd c.map_list
      · have hxl2 : x ≤ lastEnd (f0 :: rest) := by rw [hml] at hxl; exact hxl
        have hcov := cover_core rest f0 hchain2 hlen2 x (by omega) hxl2
        rcases hcov with ⟨f, hf, hf1, hf2⟩ | ⟨sp, hsp, hs1, hs2⟩
        · refine ⟨f, ?_, hf1, hf2⟩
          exact (foldl_add_bd_mem _ c f).mpr (Or.inl (by rw [hml]; exact hf))
        · have hspF : sp ∈ fillSpans c.map_list endAddr := by
            rw [hml]
            exact fillSpans_gaps f0 rest endAddr sp hsp
          obtain ⟨k, hk⟩ := span_to_synth _ c.ucnt sp hspF
          refine ⟨mkUnmappedField k sp.1 sp.2,
            (foldl_add_bd_mem _ c _).mpr (Or.inr hk), ?_, ?_⟩
          · rw [mkUnmappedField_start]
            exact hs1
          · rw [mkUnmappedField_endBit _ _ _ (by omega : sp.1 ≤ sp.2)]
            exact hs2
      · cases endAddr with
        | none =>
          have hx2 : x ≤ lastEnd c.map_list := hx
          omega
        | some e =>
          have hx2 : x ≤ max (lastEnd c.map_list) e := hx
          have hxe : x ≤ e := by
            rcases Nat.le_total (lastEnd c.map_list) e with hle | hle
            · rw [max_eq_right hle] at hx2
              exact hx2
            · rw [max_eq_left hle] at hx2
              omega
          have hlt : lastEnd c.map_list < e := by omega
          have hsp : (lastEnd c.map_list + 1, e) ∈
              fillSpans c.map_list (some e) := by
            rw [hml]
            rw [hml] at hlt
            exact fillSpans_trailing f0 rest e hlt
          obtain ⟨k, hk⟩ := span_to_synth _ c.ucnt _ hsp
          refine ⟨mkUnmappedField k (lastEnd c.map_list + 1) e,
            (foldl_add_bd_mem _ c _).mpr (Or.inr hk), ?_, ?_⟩
          · rw [mkUnmappedField_start]
            omega
          · rw [mkUnmappedField_endBit _ _ _ (by omega : lastEnd c.map_list + 1 ≤ e)]
            exact hxe

end PyBinMap

namespace PyBinMap

/-- Witness for C7 at the unit-test layout (`fill_unmapped()` without an
end address on fields `[1,1]`, `[8,15]`, `[32,47]`). -/
theorem fill_unmapped_correct_witness :
    (wGapMap.map_list ≠ [] ∧
     List.Pairwise (fun a b => a.start ≤ b.start) wGapMap.map_list ∧
     List.Pairwise
       (fun a b => endBit a < b.start ∨ endBit b < a.start) wGapMap.map_list ∧
     (∀ f ∈ wGapMap.map_list, 1 ≤ f.length)) ∧
    (∃ c2, fill_unmapped wGapMap none = some c2 ∧
      (∀ g, g ∈ c2.map_list ↔
        g ∈ wGapMap.map_list ∨
          g ∈ synthFields wGapMap.ucnt (fillSpans wGapMap.map_list none)) ∧
      (∀ f0 rest, wGapMap.map_list = f0 :: rest → 0 < f0.start →
        (0, f0.start - 1) ∈ fillSpans wGapMap.map_list none) ∧
      (∀ i a b, wGapMap.map_list.get? i = some a →
        wGapMap.map_list.get? (i + 1) = some b → endBit a + 1 < b.start →
        (endBit a + 1, b.start - 1) ∈ fillSpans wGapMap.map_list none) ∧
      (∀ e, (none : Option Nat) = some e → lastEnd wGapMap.map_list < e →
        (lastEnd wGapMap.map_list + 1, e) ∈ fillSpans wGapMap.map_list none) ∧
      (∀ i sp, (fillSpans wGapMap.map_list none).get? i = some sp →
        (synthFields wGapMap.ucnt (fillSpans wGapMap.map_list none)).get? i =
          some (mkUnmappedField (wGapMap.ucnt + i) sp.1 sp.2)) ∧
      (∀ k s e, (mkUnmappedField k s e).name = "unmapped_" ++ pad3 k) ∧
      (∀ g ∈ synthFields wGapMap.ucnt (fillSpans wGapMap.map_list none),
        g.kind = Kind.raw) ∧
      c2.ucnt = wGapMap.ucnt + (fillSpans wGapMap.map_list none).length ∧
      (∀ g ∈ synthFields wGapMap.ucnt (fillSpans wGapMap.map_list none),
        ∀ f ∈ wGapMap.map_list, endBit g < f.start ∨ endBit f < g.start) ∧
      (∀ x, x ≤ (match (none : Option Nat) with
                 | some e => max (lastEnd wGapMap.map_list) e
                 | none => lastEnd wGapMap.map_list) →
        ∃ g ∈ c2.map_list, g.start ≤ x ∧ x ≤ endBit g)) :=
  ⟨⟨by decide, by decide, by decide, by decide⟩,
    fill_unmapped_correct wGapMap none (by decide) (by decide) (by decide)
      (by decide)⟩

end PyBinMap
